import Mathlib

/-!
Verification of the vertical-velocity diagnostic `omegaHz` from
`octant/wvelocity.py` against its natural-language specification.

Arrays are modelled as numpy-style N-dimensional arrays: a shape (list of
dimension sizes) together with a row-major flattened list of rational
entries.  The numpy operations used by the source — basic slicing with a
leading ellipsis, elementwise arithmetic with broadcasting, `np.diff`,
`np.cumsum` — are embedded as executable functions; operations that can
raise (broadcast failure, invalid axis) return `Option`.
-/

/-- A numpy-style n-dimensional array over ℚ: a shape together with the
row-major flattened data.  (Well-formed arrays satisfy
`flat.length = shape.prod`; reads outside the data return the default 0.) -/
structure NDArray where
  shape : List Nat
  flat : List ℚ
deriving DecidableEq, Repr

/-- Row-major flat position of a multi-index. -/
def flatIdx : List Nat → List Nat → Nat
  | _ :: ds, i :: is => i * ds.prod + flatIdx ds is
  | _, _ => 0

/-- The multi-index is componentwise within the shape. -/
def inBounds : List Nat → List Nat → Prop
  | [], [] => True
  | d :: ds, i :: is => i < d ∧ inBounds ds is
  | _, _ => False

/-- All multi-indices of a shape, enumerated in row-major order
(last index varies fastest). -/
def allIdx : List Nat → List (List Nat)
  | [] => [[]]
  | d :: ds => (List.range d).flatMap (fun i => (allIdx ds).map (fun is => i :: is))

/-- Read an entry at a multi-index (default 0 outside the data). -/
def NDArray.get (a : NDArray) (idx : List Nat) : ℚ :=
  a.flat.getD (flatIdx a.shape idx) 0

/-- Construct an array of the given shape from an entry function. -/
def build (s : List Nat) (f : List Nat → ℚ) : NDArray :=
  ⟨s, (allIdx s).map f⟩

/-- Map an index of a broadcast result onto an index of an operand:
dimensions of size 1 are read at position 0 (numpy broadcasting). -/
def clampIdx : List Nat → List Nat → List Nat
  | d :: ds, i :: is => (if d = 1 then 0 else i) :: clampIdx ds is
  | _, _ => []

/-- Broadcast-aware read: `idx` indexes the broadcast result, whose rank may
exceed the array's rank; leading axes are dropped and size-1 axes are
read at 0, as numpy does. -/
def NDArray.bget (a : NDArray) (idx : List Nat) : ℚ :=
  a.get (clampIdx a.shape (idx.drop (idx.length - a.shape.length)))

/-- Combine two dimension lists, aligned from the trailing axis
(arguments are reversed shapes): equal sizes agree, size 1 stretches,
anything else is a broadcast error. -/
def bcastDims : List Nat → List Nat → Option (List Nat)
  | [], ys => some ys
  | xs, [] => some xs
  | x :: xs, y :: ys =>
      (bcastDims xs ys).bind (fun rest =>
        if x = y then some (x :: rest)
        else if x = 1 then some (y :: rest)
        else if y = 1 then some (x :: rest)
        else none)

/-- The numpy broadcast of two shapes, or `none` if they are incompatible. -/
def broadcastShapes (s t : List Nat) : Option (List Nat) :=
  (bcastDims s.reverse t.reverse).map List.reverse

/-- Elementwise binary operation with numpy broadcasting. -/
def NDArray.binop (f : ℚ → ℚ → ℚ) (a b : NDArray) : Option NDArray :=
  (broadcastShapes a.shape b.shape).map (fun s =>
    build s (fun idx => f (a.bget idx) (b.bget idx)))

/-- Elementwise negation (`-a` on a numpy array). -/
def NDArray.neg (a : NDArray) : NDArray :=
  ⟨a.shape, a.flat.map (fun x => -x)⟩

/-- Multiplication by a python scalar (`c * a`). -/
def NDArray.scale (c : ℚ) (a : NDArray) : NDArray :=
  ⟨a.shape, a.flat.map (fun x => c * x)⟩

/-- New sizes of the sliced axes: a slice `f : n - l` (python `a[f:-l]`,
with `f = 0` or `l = 0` for an open end) shrinks dimension `d` to
`d - f - l`, clamped at 0 exactly as python slicing does. -/
def sliceDims : List Nat → List (Nat × Nat) → List Nat
  | ds, [] => ds
  | d :: ds, (f, l) :: ss => (d - f - l) :: sliceDims ds ss
  | [], _ :: _ => []

/-- Shift a result index back into the source: add each slice's front
offset. -/
def addOffs : List Nat → List (Nat × Nat) → List Nat
  | is, [] => is
  | i :: is, (f, _) :: ss => (i + f) :: addOffs is ss
  | [], _ :: _ => []

/-- Basic slicing on the leading axes, `a[f₁:-l₁, f₂:-l₂, ...]`:
requires at least as many axes as slice specs (else an IndexError). -/
def NDArray.sliceFront (a : NDArray) (specs : List (Nat × Nat)) : Option NDArray :=
  if specs.length ≤ a.shape.length then
    some (build (sliceDims a.shape specs) (fun idx => a.get (addOffs idx specs)))
  else none

/-- Basic slicing with a leading ellipsis, `a[..., f₁:-l₁, f₂:-l₂]`:
the specs apply to the trailing axes; requires at least as many axes as
slice specs (else an IndexError). -/
def NDArray.sliceTrail (a : NDArray) (specs : List (Nat × Nat)) : Option NDArray :=
  if specs.length ≤ a.shape.length then
    some (build
      (a.shape.take (a.shape.length - specs.length) ++
        sliceDims (a.shape.drop (a.shape.length - specs.length)) specs)
      (fun idx => a.get (idx.take (a.shape.length - specs.length) ++
        addOffs (idx.drop (a.shape.length - specs.length)) specs)))
  else none

/-- The operation `np.diff(a, axis=-k)`: first-order forward difference along the `k`-th
axis from the end; `none` when the axis does not exist (AxisError). -/
def NDArray.diffNeg (a : NDArray) (k : Nat) : Option NDArray :=
  if 1 ≤ k ∧ k ≤ a.shape.length then
    some (build (a.shape.set (a.shape.length - k) (a.shape.getD (a.shape.length - k) 0 - 1))
      (fun idx => a.get (idx.set (a.shape.length - k) (idx.getD (a.shape.length - k) 0 + 1))
        - a.get idx))
  else none

/-- The operation `np.cumsum(a, axis=-k)`: running sum along the `k`-th axis from the
end, in array-index order; `none` when the axis does not exist
(AxisError). -/
def NDArray.cumsumNeg (a : NDArray) (k : Nat) : Option NDArray :=
  if 1 ≤ k ∧ k ≤ a.shape.length then
    some (build a.shape
      (fun idx => ((List.range (idx.getD (a.shape.length - k) 0 + 1)).map
        (fun j => a.get (idx.set (a.shape.length - k) j))).sum))
  else none

/-- The python scalar `0.5` as a 0-d array. -/
def half : NDArray := ⟨[], [1/2]⟩

/-- The python scalar `0` (the default value of `Hz_t`) as a 0-d array. -/
def zeroScalar : NDArray := ⟨[], [0]⟩

/-- The first statement of the source function:

    uflux = u[..., 1:-1, :] * 0.5 * (Hz[..., 1:-1, :-1] + Hz[..., 1:-1, 1:])
-/
def uflux (u Hz : NDArray) : Option NDArray :=
  (u.sliceTrail [(1, 1), (0, 0)]).bind (fun uin =>
  (NDArray.binop (fun x y => x * y) uin half).bind (fun uhalf =>
  (Hz.sliceTrail [(1, 1), (0, 1)]).bind (fun hzuW =>
  (Hz.sliceTrail [(1, 1), (1, 0)]).bind (fun hzuE =>
  (NDArray.binop (fun x y => x + y) hzuW hzuE).bind (fun hzuSum =>
  NDArray.binop (fun x y => x * y) uhalf hzuSum)))))

/-- The second statement of the source function:

    vflux = v[..., :, 1:-1] * 0.5 * (Hz[..., :-1, 1:-1] + Hz[..., 1:, 1:-1])
-/
def vflux (v Hz : NDArray) : Option NDArray :=
  (v.sliceTrail [(0, 0), (1, 1)]).bind (fun vin =>
  (NDArray.binop (fun x y => x * y) vin half).bind (fun vhalf =>
  (Hz.sliceTrail [(0, 1), (1, 1)]).bind (fun hzvS =>
  (Hz.sliceTrail [(1, 0), (1, 1)]).bind (fun hzvN =>
  (NDArray.binop (fun x y => x + y) hzvS hzvN).bind (fun hzvSum =>
  NDArray.binop (fun x y => x * y) vhalf hzvSum)))))

/-- The third statement of the source function:

    omegaHz_sigma = -Hz_t - np.diff(uflux, axis=-1)*pm[1:-1, 1:-1]
                          - np.diff(vflux, axis=-2)*pn[1:-1, 1:-1]
-/
def omegaHz_sigma (u v pm pn Hz Hz_t : NDArray) : Option NDArray :=
  (uflux u Hz).bind (fun uf =>
  (vflux v Hz).bind (fun vf =>
  (uf.diffNeg 1).bind (fun du =>
  (pm.sliceFront [(1, 1), (1, 1)]).bind (fun pmI =>
  (NDArray.binop (fun x y => x * y) du pmI).bind (fun dupm =>
  (vf.diffNeg 2).bind (fun dv =>
  (pn.sliceFront [(1, 1), (1, 1)]).bind (fun pnI =>
  (NDArray.binop (fun x y => x * y) dv pnI).bind (fun dvpn =>
  (NDArray.binop (fun x y => x - y) Hz_t.neg dupm).bind (fun t1 =>
  NDArray.binop (fun x y => x - y) t1 dvpn)))))))))

/-- The function `omegaHz(u, v, pm, pn, Hz, Hz_t)`: the divergence term followed by
`np.cumsum(omegaHz_sigma, axis=-3)`. -/
def omegaHz (u v pm pn Hz Hz_t : NDArray) : Option NDArray :=
  (omegaHz_sigma u v pm pn Hz Hz_t).bind (fun s => s.cumsumNeg 3)

/-- The call of `omegaHz` with `Hz_t` omitted: the python default is the
scalar `0`. -/
def omegaHzDefault (u v pm pn Hz : NDArray) : Option NDArray :=
  omegaHz u v pm pn Hz zeroScalar

/-! ### Basic facts about the index enumeration -/

theorem length_allIdx (s : List Nat) : (allIdx s).length = s.prod := by
  induction s with
  | nil => rfl
  | cons d ds ih =>
    simp [allIdx, List.length_flatMap, Function.comp_def, ih, List.map_const',
      List.sum_const_nat]

theorem flatIdx_lt {s idx : List Nat} (h : inBounds s idx) :
    flatIdx s idx < s.prod := by
  induction s generalizing idx with
  | nil =>
    cases idx with
    | nil => simp [flatIdx]
    | cons i is => exact absurd h (by simp [inBounds])
  | cons d ds ih =>
    cases idx with
    | nil => exact absurd h (by simp [inBounds])
    | cons i is =>
      obtain ⟨hi, hrest⟩ := h
      have hr := ih hrest
      have h1 : (i + 1) * ds.prod = i * ds.prod + ds.prod := by ring
      have h2 : (i + 1) * ds.prod ≤ d * ds.prod :=
        Nat.mul_le_mul_right _ hi
      show i * ds.prod + flatIdx ds is < (d :: ds).prod
      rw [List.prod_cons]
      omega

theorem getElem?_flatMap_const {α β : Type} (l : List α) (g : α → List β)
    (K q r : Nat) (hK : ∀ a ∈ l, (g a).length = K) (hr : r < K) (a : α)
    (ha : l[q]? = some a) :
    (l.flatMap g)[q * K + r]? = (g a)[r]? := by
  induction l generalizing q with
  | nil => simp at ha
  | cons x xs ih =>
    cases q with
    | zero =>
      have hx : x = a := by simpa using ha
      subst hx
      rw [List.flatMap_cons, List.getElem?_append_left]
      · simp
      · rw [hK x (by simp)]; omega
    | succ q' =>
      have hKx : (g x).length = K := hK x (by simp)
      have h1 : (q' + 1) * K = q' * K + K := by ring
      rw [List.flatMap_cons, List.getElem?_append_right (by omega)]
      have h2 : (q' + 1) * K + r - (g x).length = q' * K + r := by omega
      rw [h2]
      exact ih q' (fun b hb => hK b (by simp [hb])) (by simpa using ha)

theorem getElem?_allIdx {s idx : List Nat} (h : inBounds s idx) :
    (allIdx s)[flatIdx s idx]? = some idx := by
  induction s generalizing idx with
  | nil =>
    cases idx with
    | nil => rfl
    | cons i is => exact absurd h (by simp [inBounds])
  | cons d ds ih =>
    cases idx with
    | nil => exact absurd h (by simp [inBounds])
    | cons i is =>
      obtain ⟨hi, hrest⟩ := h
      show ((List.range d).flatMap
        (fun i => (allIdx ds).map (fun is => i :: is)))[i * ds.prod + flatIdx ds is]? =
          some (i :: is)
      rw [getElem?_flatMap_const (List.range d) _ ds.prod i (flatIdx ds is)
        (fun a _ => by simp [length_allIdx]) (flatIdx_lt hrest) i
        (List.getElem?_range hi)]
      simp [ih hrest]

theorem mem_allIdx {s idx : List Nat} : idx ∈ allIdx s ↔ inBounds s idx := by
  induction s generalizing idx with
  | nil =>
    cases idx with
    | nil => simp [allIdx, inBounds]
    | cons i is => simp [allIdx, inBounds]
  | cons d ds ih =>
    cases idx with
    | nil => simp [allIdx, inBounds]
    | cons i is =>
      show i :: is ∈ (List.range d).flatMap _ ↔ i < d ∧ inBounds ds is
      simp only [List.mem_flatMap, List.mem_map, List.mem_range]
      constructor
      · rintro ⟨a, ha, is', his', heq⟩
        obtain ⟨rfl, rfl⟩ : a = i ∧ is' = is := by
          constructor <;> [exact (List.cons.injEq .. ▸ heq).1;
            exact (List.cons.injEq .. ▸ heq).2]
        exact ⟨ha, ih.mp his'⟩
      · rintro ⟨hi, hrest⟩
        exact ⟨i, hi, is, ih.mpr hrest, rfl⟩

/-! ### Reading entries of constructed arrays -/

theorem get_build {s : List Nat} (f : List Nat → ℚ) {idx : List Nat}
    (h : inBounds s idx) : (build s f).get idx = f idx := by
  show ((allIdx s).map f).getD (flatIdx s idx) 0 = f idx
  rw [List.getD_eq_getElem?_getD, List.getElem?_map, getElem?_allIdx h]
  rfl

theorem build_ext {s : List Nat} {f g : List Nat → ℚ}
    (h : ∀ idx, inBounds s idx → f idx = g idx) : build s f = build s g := by
  show (⟨s, (allIdx s).map f⟩ : NDArray) = ⟨s, (allIdx s).map g⟩
  congr 1
  exact List.map_congr_left (fun idx hidx => h idx (mem_allIdx.mp hidx))

/-! ### Reads through mapped data, broadcasting, and all-zero arrays -/

theorem getD_map_zero (f : ℚ → ℚ) (hf : f 0 = 0) (l : List ℚ) (p : Nat) :
    (l.map f).getD p 0 = f (l.getD p 0) := by
  induction l generalizing p with
  | nil => simpa using hf.symm
  | cons x xs ih =>
    cases p with
    | zero => rfl
    | succ q => simpa using ih q

theorem neg_get (a : NDArray) (idx : List Nat) : a.neg.get idx = -(a.get idx) :=
  getD_map_zero (fun x => -x) neg_zero a.flat (flatIdx a.shape idx)

theorem neg_bget (a : NDArray) (idx : List Nat) : a.neg.bget idx = -(a.bget idx) :=
  neg_get a _

theorem scale_get (c : ℚ) (a : NDArray) (idx : List Nat) :
    (a.scale c).get idx = c * a.get idx :=
  getD_map_zero (fun x => c * x) (mul_zero c) a.flat (flatIdx a.shape idx)

theorem scale_bget (c : ℚ) (a : NDArray) (idx : List Nat) :
    (a.scale c).bget idx = c * a.bget idx :=
  scale_get c a _

/-- Every entry of the data is 0 (a zero-valued array). -/
abbrev AllZero (a : NDArray) : Prop := ∀ x ∈ a.flat, x = 0

/-- Every entry of the data equals the constant `c`. -/
abbrev AllConst (a : NDArray) (c : ℚ) : Prop := ∀ x ∈ a.flat, x = c

theorem allZero_get {a : NDArray} (h : AllZero a) (idx : List Nat) :
    a.get idx = 0 := by
  show a.flat.getD (flatIdx a.shape idx) 0 = 0
  rw [List.getD_eq_getElem?_getD]
  cases hq : a.flat[flatIdx a.shape idx]? with
  | none => rfl
  | some y => simpa using h y (List.getElem?_mem hq)

theorem allZero_bget {a : NDArray} (h : AllZero a) (idx : List Nat) :
    a.bget idx = 0 :=
  allZero_get h _

theorem clampIdx_eq_self {s idx : List Nat} (h : inBounds s idx) :
    clampIdx s idx = idx := by
  induction s generalizing idx with
  | nil =>
    cases idx with
    | nil => rfl
    | cons i is => exact absurd h (by simp [inBounds])
  | cons d ds ih =>
    cases idx with
    | nil => exact absurd h (by simp [inBounds])
    | cons i is =>
      obtain ⟨hi, hrest⟩ := h
      show (if d = 1 then 0 else i) :: clampIdx ds is = i :: is
      rw [ih hrest]
      congr 1
      split
      · omega
      · rfl

theorem bget_eq_get {a : NDArray} {idx : List Nat}
    (hlen : idx.length = a.shape.length) (h : inBounds a.shape idx) :
    a.bget idx = a.get idx := by
  show a.get (clampIdx a.shape (idx.drop (idx.length - a.shape.length))) = a.get idx
  rw [hlen, Nat.sub_self, List.drop_zero, clampIdx_eq_self h]

theorem bget_cons {a : NDArray} (k : Nat) {idx : List Nat}
    (hlen : a.shape.length ≤ idx.length) : a.bget (k :: idx) = a.bget idx := by
  show a.get (clampIdx a.shape ((k :: idx).drop ((k :: idx).length - a.shape.length))) =
    a.get (clampIdx a.shape (idx.drop (idx.length - a.shape.length)))
  have h1 : (k :: idx).length - a.shape.length = (idx.length - a.shape.length) + 1 := by
    simp only [List.length_cons]
    omega
  rw [h1, List.drop_succ_cons]

theorem bget_of_shape_nil {a : NDArray} (h : a.shape = []) (idx : List Nat) :
    a.bget idx = a.get [] := by
  show a.get (clampIdx a.shape (idx.drop (idx.length - a.shape.length))) = a.get []
  rw [h]
  rfl

/-! ### Broadcast computations -/

theorem bcastDims_self (l : List Nat) : bcastDims l l = some l := by
  induction l with
  | nil => rfl
  | cons x xs ih => simp [bcastDims, ih]

theorem broadcastShapes_self (s : List Nat) : broadcastShapes s s = some s := by
  simp [broadcastShapes, bcastDims_self]

theorem bcastDims_nil_right (l : List Nat) : bcastDims l [] = some l := by
  cases l <;> rfl

theorem broadcastShapes_nil_right (s : List Nat) :
    broadcastShapes s [] = some s := by
  simp [broadcastShapes, bcastDims_nil_right]

theorem broadcastShapes_nil_left (s : List Nat) :
    broadcastShapes [] s = some s := by
  simp [broadcastShapes, bcastDims]

theorem broadcastShapes_two_three (A B C : Nat) :
    broadcastShapes [B, C] [A, B, C] = some [A, B, C] := by
  simp [broadcastShapes, bcastDims]

theorem bcastDims_cons_mismatch {x y : Nat} (hxy : x ≠ y) (hx : x ≠ 1)
    (hy : y ≠ 1) (l1 l2 : List Nat) : bcastDims (x :: l1) (y :: l2) = none := by
  show (bcastDims l1 l2).bind _ = none
  cases bcastDims l1 l2 with
  | none => rfl
  | some rest => simp [hxy, hx, hy]

/-! ### The numpy operations, rewritten as explicit constructions -/

theorem binop_eq {f : ℚ → ℚ → ℚ} {a b : NDArray} {s : List Nat}
    (h : broadcastShapes a.shape b.shape = some s) :
    NDArray.binop f a b =
      some (build s (fun idx => f (a.bget idx) (b.bget idx))) := by
  simp [NDArray.binop, h]

theorem sliceTrail_three {a : NDArray} {A B C : Nat} (h : a.shape = [A, B, C])
    (f1 l1 f2 l2 : Nat) :
    a.sliceTrail [(f1, l1), (f2, l2)] =
      some (build [A, B - f1 - l1, C - f2 - l2]
        (fun idx => a.get (idx.take 1 ++ addOffs (idx.drop 1) [(f1, l1), (f2, l2)]))) := by
  unfold NDArray.sliceTrail
  rw [h]
  norm_num [sliceDims]

theorem sliceTrail_two {a : NDArray} {B C : Nat} (h : a.shape = [B, C])
    (f1 l1 f2 l2 : Nat) :
    a.sliceTrail [(f1, l1), (f2, l2)] =
      some (build [B - f1 - l1, C - f2 - l2]
        (fun idx => a.get (addOffs idx [(f1, l1), (f2, l2)]))) := by
  unfold NDArray.sliceTrail
  rw [h]
  norm_num [sliceDims]

theorem sliceFront_two {a : NDArray} {B C : Nat} (h : a.shape = [B, C])
    (f1 l1 f2 l2 : Nat) :
    a.sliceFront [(f1, l1), (f2, l2)] =
      some (build [B - f1 - l1, C - f2 - l2]
        (fun idx => a.get (addOffs idx [(f1, l1), (f2, l2)]))) := by
  unfold NDArray.sliceFront
  rw [h]
  norm_num [sliceDims]

theorem diffNeg_three_one {a : NDArray} {A B C : Nat} (h : a.shape = [A, B, C]) :
    a.diffNeg 1 = some (build [A, B, C - 1]
      (fun idx => a.get (idx.set 2 (idx.getD 2 0 + 1)) - a.get idx)) := by
  unfold NDArray.diffNeg
  rw [h]
  norm_num

theorem diffNeg_three_two {a : NDArray} {A B C : Nat} (h : a.shape = [A, B, C]) :
    a.diffNeg 2 = some (build [A, B - 1, C]
      (fun idx => a.get (idx.set 1 (idx.getD 1 0 + 1)) - a.get idx)) := by
  unfold NDArray.diffNeg
  rw [h]
  norm_num

theorem diffNeg_two_one {a : NDArray} {B C : Nat} (h : a.shape = [B, C]) :
    a.diffNeg 1 = some (build [B, C - 1]
      (fun idx => a.get (idx.set 1 (idx.getD 1 0 + 1)) - a.get idx)) := by
  unfold NDArray.diffNeg
  rw [h]
  norm_num

theorem diffNeg_two_two {a : NDArray} {B C : Nat} (h : a.shape = [B, C]) :
    a.diffNeg 2 = some (build [B - 1, C]
      (fun idx => a.get (idx.set 0 (idx.getD 0 0 + 1)) - a.get idx)) := by
  unfold NDArray.diffNeg
  rw [h]
  norm_num

theorem cumsumNeg_three {a : NDArray} {A B C : Nat} (h : a.shape = [A, B, C]) :
    a.cumsumNeg 3 = some (build [A, B, C] (fun idx =>
      ((List.range (idx.getD 0 0 + 1)).map (fun j => a.get (idx.set 0 j))).sum)) := by
  unfold NDArray.cumsumNeg
  rw [h]
  norm_num

theorem cumsumNeg_two_none {a : NDArray} {B C : Nat} (h : a.shape = [B, C]) :
    a.cumsumNeg 3 = none := by
  unfold NDArray.cumsumNeg
  rw [h]
  norm_num

/-! ### The specification's description of the algorithm (section 4.1),
written as index-level formulas to be compared with the code -/

/-- Spec step 1: the east-west flux on a u-edge — adjacent layer
thicknesses averaged onto the edge, times `u`, at interior row `i + 1`. -/
def specUflux (u Hz : NDArray) (k i j : Nat) : ℚ :=
  u.get [k, i + 1, j] * (1 / 2 * (Hz.get [k, i + 1, j] + Hz.get [k, i + 1, j + 1]))

/-- Spec step 2: the north-south flux on a v-edge — adjacent layer
thicknesses averaged onto the edge, times `v`, at interior column `j + 1`. -/
def specVflux (v Hz : NDArray) (k i j : Nat) : ℚ :=
  v.get [k, i, j + 1] * (1 / 2 * (Hz.get [k, i, j + 1] + Hz.get [k, i + 1, j + 1]))

/-- Spec step 3: the per-layer divergence term
`-Hz_t - diff(uflux along x) * pm_interior - diff(vflux along y) * pn_interior`. -/
def specSigma (u v pm pn Hz Hz_t : NDArray) (k i j : Nat) : ℚ :=
  -(Hz_t.bget [k, i, j])
    - (specUflux u Hz k i (j + 1) - specUflux u Hz k i j) * pm.get [i + 1, j + 1]
    - (specVflux v Hz k (i + 1) j - specVflux v Hz k i j) * pn.get [i + 1, j + 1]

/-- Spec step 4: the running sum of the divergence term along the
vertical-layer axis, in array-index order, with no zero slice inserted. -/
def specOmega (u v pm pn Hz Hz_t : NDArray) (k i j : Nat) : ℚ :=
  ((List.range (k + 1)).map (fun q => specSigma u v pm pn Hz Hz_t q i j)).sum

/-- The whole output array the specification describes. -/
def specArr (u v pm pn Hz Hz_t : NDArray) (L m n : Nat) : NDArray :=
  build [L, m, n] (fun idx =>
    specOmega u v pm pn Hz Hz_t (idx.getD 0 0) (idx.getD 1 0) (idx.getD 2 0))

/-- Shapes of `Hz_t` accepted by the model: a python scalar, a 2-d array
matching the output's horizontal extent, or a full 3-d array (all
broadcastable against the divergence term). -/
def HztOk (Hz_t : NDArray) (L m n : Nat) : Prop :=
  Hz_t.shape = [] ∨ Hz_t.shape = [m, n] ∨ Hz_t.shape = [L, m, n]

/-! ### Small helpers for in-bounds indices and python scalars -/

theorem inBounds_three {A B C k i j : Nat} (hk : k < A) (hi : i < B)
    (hj : j < C) : inBounds [A, B, C] [k, i, j] :=
  ⟨hk, hi, hj, trivial⟩

theorem inBounds_two {B C i j : Nat} (hi : i < B) (hj : j < C) :
    inBounds [B, C] [i, j] :=
  ⟨hi, hj, trivial⟩

theorem half_bget (idx : List Nat) : half.bget idx = 1 / 2 := by
  rw [bget_of_shape_nil rfl]
  rfl

theorem zeroScalar_bget (idx : List Nat) : zeroScalar.bget idx = 0 := by
  rw [bget_of_shape_nil rfl]
  rfl

/-- An elementwise `binop` on two explicitly constructed arrays. -/
theorem binop_build_build (f : ℚ → ℚ → ℚ) (s t r : List Nat)
    (g h : List Nat → ℚ) (hb : broadcastShapes s t = some r) :
    NDArray.binop f (build s g) (build t h) =
      some (build r (fun idx => f ((build s g).bget idx) ((build t h).bget idx))) :=
  binop_eq hb

/-- An elementwise `binop` of an explicitly constructed array with a python scalar. -/
theorem binop_build_scalar (f : ℚ → ℚ → ℚ) (s : List Nat) (g : List Nat → ℚ)
    (b : NDArray) (hb : b.shape = []) :
    NDArray.binop f (build s g) b =
      some (build s (fun idx => f ((build s g).bget idx) (b.bget idx))) :=
  binop_eq (by show broadcastShapes s b.shape = some s
               rw [hb]
               exact broadcastShapes_nil_right s)

/-- An elementwise `binop` of an arbitrary array against an explicitly constructed one. -/
theorem binop_any_build (f : ℚ → ℚ → ℚ) (a : NDArray) (t r : List Nat)
    (h : List Nat → ℚ) (hb : broadcastShapes a.shape t = some r) :
    NDArray.binop f a (build t h) =
      some (build r (fun idx => f (a.bget idx) ((build t h).bget idx))) :=
  binop_eq hb

theorem broadcastShapes_three_two (A B C : Nat) :
    broadcastShapes [A, B, C] [B, C] = some [A, B, C] := by
  simp [broadcastShapes, bcastDims]

/-- Reading an entry of a rank-3 construction. -/
theorem build_get_three {A B C : Nat} (g : List Nat → ℚ) {k i j : Nat}
    (hk : k < A) (hi : i < B) (hj : j < C) :
    (build [A, B, C] g).get [k, i, j] = g [k, i, j] :=
  get_build g (inBounds_three hk hi hj)

/-- Broadcast-reading an entry of a rank-3 construction. -/
theorem build_bget_three {A B C : Nat} (g : List Nat → ℚ) {k i j : Nat}
    (hk : k < A) (hi : i < B) (hj : j < C) :
    (build [A, B, C] g).bget [k, i, j] = g [k, i, j] := by
  show (build [A, B, C] g).get (clampIdx [A, B, C] [k, i, j]) = g [k, i, j]
  rw [clampIdx_eq_self (inBounds_three hk hi hj)]
  exact get_build g (inBounds_three hk hi hj)

/-- Broadcast-reading a rank-2 construction at a 3-component index drops
the leading component. -/
theorem build_bget_two_of_three {B C : Nat} (g : List Nat → ℚ) (k : Nat)
    {i j : Nat} (hi : i < B) (hj : j < C) :
    (build [B, C] g).bget [k, i, j] = g [i, j] := by
  show (build [B, C] g).get (clampIdx [B, C] [i, j]) = g [i, j]
  rw [clampIdx_eq_self (inBounds_two hi hj)]
  exact get_build g (inBounds_two hi hj)

/-- Broadcast-reading a rank-2 construction at a 2-component index. -/
theorem build_bget_two {B C : Nat} (g : List Nat → ℚ) {i j : Nat}
    (hi : i < B) (hj : j < C) :
    (build [B, C] g).bget [i, j] = g [i, j] := by
  show (build [B, C] g).get (clampIdx [B, C] [i, j]) = g [i, j]
  rw [clampIdx_eq_self (inBounds_two hi hj)]
  exact get_build g (inBounds_two hi hj)

/-- A multi-index within a rank-3 shape is a 3-list of bounded components. -/
theorem inBounds_three_elim {A B C : Nat} {idx : List Nat}
    (h : inBounds [A, B, C] idx) :
    ∃ k i j, idx = [k, i, j] ∧ k < A ∧ i < B ∧ j < C := by
  rcases idx with _ | ⟨k, _ | ⟨i, _ | ⟨j, _ | ⟨x, rest⟩⟩⟩⟩
  · exact absurd h (by simp [inBounds])
  · exact absurd h (by simp [inBounds])
  · exact absurd h (by simp [inBounds])
  · exact ⟨k, i, j, rfl, h.1, h.2.1, h.2.2.1⟩
  · exact absurd h (by simp [inBounds])

/-- A multi-index within a rank-2 shape is a 2-list of bounded components. -/
theorem inBounds_two_elim {B C : Nat} {idx : List Nat}
    (h : inBounds [B, C] idx) :
    ∃ i j, idx = [i, j] ∧ i < B ∧ j < C := by
  rcases idx with _ | ⟨i, _ | ⟨j, _ | ⟨x, rest⟩⟩⟩
  · exact absurd h (by simp [inBounds])
  · exact absurd h (by simp [inBounds])
  · exact ⟨i, j, rfl, h.1, h.2.1⟩
  · exact absurd h (by simp [inBounds])

/-! ### Closed form of the first source statement -/

theorem uflux_eq {L m n : Nat} {u Hz : NDArray}
    (hu : u.shape = [L, m + 2, n + 1]) (hHz : Hz.shape = [L, m + 2, n + 2]) :
    uflux u Hz = some (build [L, m, n + 1] (fun idx =>
      specUflux u Hz (idx.getD 0 0) (idx.getD 1 0) (idx.getD 2 0))) := by
  have e1 := sliceTrail_three hu 1 1 0 0
  rw [show m + 2 - 1 - 1 = m by omega, show n + 1 - 0 - 0 = n + 1 by omega] at e1
  have e2 := sliceTrail_three hHz 1 1 0 1
  rw [show m + 2 - 1 - 1 = m by omega, show n + 2 - 0 - 1 = n + 1 by omega] at e2
  have e3 := sliceTrail_three hHz 1 1 1 0
  rw [show m + 2 - 1 - 1 = m by omega, show n + 2 - 1 - 0 = n + 1 by omega] at e3
  unfold uflux
  rw [e1, Option.some_bind,
    binop_build_scalar _ _ _ half rfl,
    Option.some_bind, e2, Option.some_bind, e3, Option.some_bind,
    binop_build_build _ _ _ _ _ _ (broadcastShapes_self [L, m, n + 1]),
    Option.some_bind,
    binop_build_build _ _ _ _ _ _ (broadcastShapes_self [L, m, n + 1])]
  refine congrArg some (build_ext ?_)
  intro idx hidx
  obtain ⟨k, i, j, rfl, hk, hi, hj⟩ := inBounds_three_elim hidx
  simp only [build_bget_three _ hk hi hj, half_bget,
    List.take_succ_cons, List.take_zero, List.drop_succ_cons,
    List.drop_zero, addOffs, List.cons_append, List.nil_append, Nat.add_zero,
    List.getD_cons_zero, List.getD_cons_succ, specUflux]
  ring

/-! ### Closed form of the second source statement -/

theorem vflux_eq {L m n : Nat} {v Hz : NDArray}
    (hv : v.shape = [L, m + 1, n + 2]) (hHz : Hz.shape = [L, m + 2, n + 2]) :
    vflux v Hz = some (build [L, m + 1, n] (fun idx =>
      specVflux v Hz (idx.getD 0 0) (idx.getD 1 0) (idx.getD 2 0))) := by
  have e1 := sliceTrail_three hv 0 0 1 1
  rw [show m + 1 - 0 - 0 = m + 1 by omega, show n + 2 - 1 - 1 = n by omega] at e1
  have e2 := sliceTrail_three hHz 0 1 1 1
  rw [show m + 2 - 0 - 1 = m + 1 by omega, show n + 2 - 1 - 1 = n by omega] at e2
  have e3 := sliceTrail_three hHz 1 0 1 1
  rw [show m + 2 - 1 - 0 = m + 1 by omega, show n + 2 - 1 - 1 = n by omega] at e3
  unfold vflux
  rw [e1, Option.some_bind,
    binop_build_scalar _ _ _ half rfl,
    Option.some_bind, e2, Option.some_bind, e3, Option.some_bind,
    binop_build_build _ _ _ _ _ _ (broadcastShapes_self [L, m + 1, n]),
    Option.some_bind,
    binop_build_build _ _ _ _ _ _ (broadcastShapes_self [L, m + 1, n])]
  refine congrArg some (build_ext ?_)
  intro idx hidx
  obtain ⟨k, i, j, rfl, hk, hi, hj⟩ := inBounds_three_elim hidx
  simp only [build_bget_three _ hk hi hj, half_bget,
    List.take_succ_cons, List.take_zero, List.drop_succ_cons,
    List.drop_zero, addOffs, List.cons_append, List.nil_append, Nat.add_zero,
    List.getD_cons_zero, List.getD_cons_succ, specVflux]
  ring

/-! ### `diff` and `cumsum` on explicitly constructed rank-3 arrays -/

theorem diffNeg_build_three_one (A B C : Nat) (g : List Nat → ℚ) :
    (build [A, B, C] g).diffNeg 1 = some (build [A, B, C - 1]
      (fun idx => (build [A, B, C] g).get (idx.set 2 (idx.getD 2 0 + 1)) -
        (build [A, B, C] g).get idx)) :=
  diffNeg_three_one rfl

theorem diffNeg_build_three_two (A B C : Nat) (g : List Nat → ℚ) :
    (build [A, B, C] g).diffNeg 2 = some (build [A, B - 1, C]
      (fun idx => (build [A, B, C] g).get (idx.set 1 (idx.getD 1 0 + 1)) -
        (build [A, B, C] g).get idx)) :=
  diffNeg_three_two rfl

theorem cumsumNeg_build_three (A B C : Nat) (g : List Nat → ℚ) :
    (build [A, B, C] g).cumsumNeg 3 = some (build [A, B, C] (fun idx =>
      ((List.range (idx.getD 0 0 + 1)).map
        (fun j => (build [A, B, C] g).get (idx.set 0 j))).sum)) :=
  cumsumNeg_three rfl

/-! ### Closed form of the third source statement -/

theorem omegaHz_sigma_eq {L m n : Nat} {u v pm pn Hz Hz_t : NDArray}
    (hu : u.shape = [L, m + 2, n + 1]) (hv : v.shape = [L, m + 1, n + 2])
    (hpm : pm.shape = [m + 2, n + 2]) (hpn : pn.shape = [m + 2, n + 2])
    (hHz : Hz.shape = [L, m + 2, n + 2]) (hzt : HztOk Hz_t L m n) :
    omegaHz_sigma u v pm pn Hz Hz_t = some (build [L, m, n] (fun idx =>
      specSigma u v pm pn Hz Hz_t (idx.getD 0 0) (idx.getD 1 0) (idx.getD 2 0))) := by
  have hbzt : broadcastShapes Hz_t.neg.shape [L, m, n] = some [L, m, n] := by
    show broadcastShapes Hz_t.shape [L, m, n] = some [L, m, n]
    rcases hzt with h | h | h <;> rw [h]
    · exact broadcastShapes_nil_left _
    · exact broadcastShapes_two_three L m n
    · exact broadcastShapes_self _
  have epm := sliceFront_two hpm 1 1 1 1
  rw [show m + 2 - 1 - 1 = m by omega, show n + 2 - 1 - 1 = n by omega] at epm
  have epn := sliceFront_two hpn 1 1 1 1
  rw [show m + 2 - 1 - 1 = m by omega, show n + 2 - 1 - 1 = n by omega] at epn
  unfold omegaHz_sigma
  rw [uflux_eq hu hHz, Option.some_bind, vflux_eq hv hHz, Option.some_bind,
    diffNeg_build_three_one L m (n + 1) _, Option.some_bind]
  rw [show n + 1 - 1 = n by omega]
  rw [epm, Option.some_bind,
    binop_build_build _ _ _ _ _ _ (broadcastShapes_three_two L m n),
    Option.some_bind,
    diffNeg_build_three_two L (m + 1) n _, Option.some_bind]
  rw [show m + 1 - 1 = m by omega]
  rw [epn, Option.some_bind,
    binop_build_build _ _ _ _ _ _ (broadcastShapes_three_two L m n),
    Option.some_bind,
    binop_any_build _ _ _ _ _ hbzt, Option.some_bind,
    binop_build_build _ _ _ _ _ _ (broadcastShapes_self [L, m, n])]
  refine congrArg some (build_ext ?_)
  intro idx hidx
  obtain ⟨k, i, j, rfl, hk, hi, hj⟩ := inBounds_three_elim hidx
  have hj1 : j + 1 < n + 1 := by omega
  have hjw : j < n + 1 := by omega
  have hi1 : i + 1 < m + 1 := by omega
  have hiw : i < m + 1 := by omega
  simp only [build_bget_three _ hk hi hj, build_bget_two_of_three _ k hi hj,
    neg_bget, List.set_cons_zero, List.set_cons_succ,
    List.getD_cons_zero, List.getD_cons_succ,
    build_get_three _ hk hi hj1, build_get_three _ hk hi hjw,
    build_get_three _ hk hi1 hj, build_get_three _ hk hiw hj,
    addOffs, specSigma]

/-! ### The master closed form of the whole routine -/

theorem omegaHz_eq {L m n : Nat} {u v pm pn Hz Hz_t : NDArray}
    (hu : u.shape = [L, m + 2, n + 1]) (hv : v.shape = [L, m + 1, n + 2])
    (hpm : pm.shape = [m + 2, n + 2]) (hpn : pn.shape = [m + 2, n + 2])
    (hHz : Hz.shape = [L, m + 2, n + 2]) (hzt : HztOk Hz_t L m n) :
    omegaHz u v pm pn Hz Hz_t = some (specArr u v pm pn Hz Hz_t L m n) := by
  unfold omegaHz
  rw [omegaHz_sigma_eq hu hv hpm hpn hHz hzt, Option.some_bind,
    cumsumNeg_build_three L m n _]
  refine congrArg some (build_ext ?_)
  intro idx hidx
  obtain ⟨k, i, j, rfl, hk, hi, hj⟩ := inBounds_three_elim hidx
  simp only [List.set_cons_zero, List.getD_cons_zero, List.getD_cons_succ,
    specOmega]
  refine congrArg List.sum (List.map_congr_left ?_)
  intro q hq
  have hqL : q < L := by
    have := List.mem_range.mp hq
    omega
  rw [build_get_three _ hqL hi hj]
  simp only [List.getD_cons_zero, List.getD_cons_succ]

/-! ### Broadcast reads of arrays with known shapes -/

theorem bget_three_any {x : NDArray} {A B C k i j : Nat}
    (hx : x.shape = [A, B, C]) (hk : k < A) (hi : i < B) (hj : j < C) :
    x.bget [k, i, j] = x.get [k, i, j] := by
  show x.get (clampIdx x.shape
    (List.drop ([k, i, j].length - x.shape.length) [k, i, j])) = x.get [k, i, j]
  rw [hx]
  norm_num
  rw [clampIdx_eq_self (inBounds_three hk hi hj)]

theorem bget_two_any {x : NDArray} {B C i j : Nat}
    (hx : x.shape = [B, C]) (hi : i < B) (hj : j < C) :
    x.bget [i, j] = x.get [i, j] := by
  show x.get (clampIdx x.shape
    (List.drop ([i, j].length - x.shape.length) [i, j])) = x.get [i, j]
  rw [hx]
  norm_num
  rw [clampIdx_eq_self (inBounds_two hi hj)]

theorem bget_two_of_three_any {x : NDArray} {B C k i j : Nat}
    (hx : x.shape = [B, C]) (hi : i < B) (hj : j < C) :
    x.bget [k, i, j] = x.get [i, j] := by
  show x.get (clampIdx x.shape
    (List.drop ([k, i, j].length - x.shape.length) [k, i, j])) = x.get [i, j]
  rw [hx]
  norm_num
  rw [clampIdx_eq_self (inBounds_two hi hj)]

/-! ### Concrete sample inputs (Ny = Nx = 3, one vertical layer) -/

def uW : NDArray := ⟨[1, 3, 2], [1, 2, 3, 4, 5, 6]⟩
def vW : NDArray := ⟨[1, 2, 3], [2, 1, 0, 3, 1, 2]⟩
def pmW : NDArray := ⟨[3, 3], [1, 1, 1, 1, 2, 1, 1, 1, 1]⟩
def pnW : NDArray := ⟨[3, 3], [1, 1, 1, 1, 3, 1, 1, 1, 1]⟩
def HzW : NDArray := ⟨[1, 3, 3], [2, 2, 2, 2, 4, 2, 2, 2, 2]⟩

/-! ### Claim C1 -/

/-- C1: for every input satisfying the shape invariants, `omegaHz` returns
exactly the composition of the four specified steps — `uflux` from
thickness averages at interior rows times interior `u`, `vflux` analogously
at interior columns, the per-layer term
`-Hz_t - diff(uflux, x)·pm_interior - diff(vflux, y)·pn_interior`, and the
cumulative sum of that term along the vertical-layer axis in array-index
order, with no zero slice inserted at the bottom. -/
theorem C1_refines_spec_steps (L m n : Nat) (u v pm pn Hz Hz_t : NDArray)
    (hu : u.shape = [L, m + 2, n + 1]) (hv : v.shape = [L, m + 1, n + 2])
    (hpm : pm.shape = [m + 2, n + 2]) (hpn : pn.shape = [m + 2, n + 2])
    (hHz : Hz.shape = [L, m + 2, n + 2]) (hzt : HztOk Hz_t L m n) :
    ∃ r, omegaHz u v pm pn Hz Hz_t = some r ∧ r.shape = [L, m, n] ∧
      ∀ k i j, k < L → i < m → j < n →
        r.get [k, i, j] = specOmega u v pm pn Hz Hz_t k i j :=
  ⟨specArr u v pm pn Hz Hz_t L m n, omegaHz_eq hu hv hpm hpn hHz hzt, rfl,
    fun k i j hk hi hj => by
      rw [specArr, build_get_three _ hk hi hj]
      simp only [List.getD_cons_zero, List.getD_cons_succ]⟩

theorem C1_witness :
    ∃ r, omegaHz uW vW pmW pnW HzW zeroScalar = some r ∧
      r.shape = [1, 1, 1] ∧ ∀ k i j, k < 1 → i < 1 → j < 1 →
        r.get [k, i, j] = specOmega uW vW pmW pnW HzW zeroScalar k i j :=
  C1_refines_spec_steps 1 1 1 uW vW pmW pnW HzW zeroScalar
    rfl rfl rfl rfl rfl (Or.inl rfl)

/-! ### Claim C2 -/

/-- C2: for `Hz` of horizontal shape (Ny, Nx) with L layers and
consistently shaped `u`, `v`, `pm`, `pn`, the output has horizontal shape
(Ny - 2, Nx - 2) and vertical-layer count L. -/
theorem C2_shape_law (L Ny Nx : Nat) (u v pm pn Hz Hz_t : NDArray)
    (hNy : 2 ≤ Ny) (hNx : 2 ≤ Nx)
    (hu : u.shape = [L, Ny, Nx - 1]) (hv : v.shape = [L, Ny - 1, Nx])
    (hpm : pm.shape = [Ny, Nx]) (hpn : pn.shape = [Ny, Nx])
    (hHz : Hz.shape = [L, Ny, Nx]) (hzt : HztOk Hz_t L (Ny - 2) (Nx - 2)) :
    ∃ r, omegaHz u v pm pn Hz Hz_t = some r ∧
      r.shape = [L, Ny - 2, Nx - 2] := by
  obtain ⟨m, rfl⟩ : ∃ m, Ny = m + 2 := ⟨Ny - 2, by omega⟩
  obtain ⟨n, rfl⟩ : ∃ n, Nx = n + 2 := ⟨Nx - 2, by omega⟩
  rw [show m + 2 - 2 = m by omega, show n + 2 - 2 = n by omega] at hzt ⊢
  rw [show n + 2 - 1 = n + 1 by omega] at hu
  rw [show m + 2 - 1 = m + 1 by omega] at hv
  exact ⟨_, omegaHz_eq hu hv hpm hpn hHz hzt, rfl⟩

theorem C2_witness :
    ∃ r, omegaHz uW vW pmW pnW HzW zeroScalar = some r ∧
      r.shape = [1, 3 - 2, 3 - 2] :=
  C2_shape_law 1 3 3 uW vW pmW pnW HzW zeroScalar (by omega) (by omega)
    rfl rfl rfl rfl rfl (Or.inl rfl)

/-! ### Claim C3 -/

/-- C3 as stated is false: with `Hz` of horizontal extent 3×3 and one
layer, the output shape is `[1, 1, 1]`, not the claimed "one fewer row and
one fewer column" `[1, 2, 2]`. -/
theorem C3_counterexample :
    (omegaHzDefault uW vW pmW pnW HzW).map NDArray.shape = some [1, 1, 1] ∧
      ([1, 1, 1] : List Nat) ≠ [1, 3 - 1, 3 - 1] := by
  constructor
  · rfl
  · decide

/-- C3 amended: the output has two fewer rows and two fewer columns than
`Hz`'s horizontal extent (one excluded on each side), and the same
vertical-layer count as the input. -/
theorem C3_amended_two_fewer (L m n : Nat) (u v pm pn Hz : NDArray)
    (hu : u.shape = [L, m + 2, n + 1]) (hv : v.shape = [L, m + 1, n + 2])
    (hpm : pm.shape = [m + 2, n + 2]) (hpn : pn.shape = [m + 2, n + 2])
    (hHz : Hz.shape = [L, m + 2, n + 2]) :
    ∃ r, omegaHzDefault u v pm pn Hz = some r ∧ r.shape = [L, m, n] :=
  ⟨_, omegaHz_eq hu hv hpm hpn hHz (Or.inl rfl), rfl⟩

theorem C3_witness :
    ∃ r, omegaHzDefault uW vW pmW pnW HzW = some r ∧ r.shape = [1, 1, 1] :=
  C3_amended_two_fewer 1 1 1 uW vW pmW pnW HzW rfl rfl rfl rfl rfl

/-! ### Claim C5 -/

/-- C5: for every valid `Hz`, `pm`, `pn`, if `u`, `v` and `Hz_t` are all
zero-valued then the returned array is zero-valued everywhere. -/
theorem C5_zero_flow (L m n : Nat) (u v pm pn Hz Hz_t : NDArray)
    (hu : u.shape = [L, m + 2, n + 1]) (hv : v.shape = [L, m + 1, n + 2])
    (hpm : pm.shape = [m + 2, n + 2]) (hpn : pn.shape = [m + 2, n + 2])
    (hHz : Hz.shape = [L, m + 2, n + 2]) (hzt : HztOk Hz_t L m n)
    (hU : AllZero u) (hV : AllZero v) (hT : AllZero Hz_t) :
    ∃ r, omegaHz u v pm pn Hz Hz_t = some r ∧ AllZero r := by
  refine ⟨_, omegaHz_eq hu hv hpm hpn hHz hzt, ?_⟩
  intro x hx
  obtain ⟨idx, _, rfl⟩ := List.mem_map.mp hx
  simp [specOmega, specSigma, specUflux, specVflux, allZero_get hU,
    allZero_get hV, allZero_bget hT]

def uZ : NDArray := ⟨[1, 3, 2], [0, 0, 0, 0, 0, 0]⟩
def vZ : NDArray := ⟨[1, 2, 3], [0, 0, 0, 0, 0, 0]⟩

theorem C5_witness :
    ∃ r, omegaHz uZ vZ pmW pnW HzW zeroScalar = some r ∧ AllZero r :=
  C5_zero_flow 1 1 1 uZ vZ pmW pnW HzW zeroScalar rfl rfl rfl rfl rfl
    (Or.inl rfl) (by decide) (by decide) (by decide)

/-! ### Claim C6 -/

/-- C6: calling with `Hz_t` omitted (python default scalar 0) returns an
array identical to the one returned for an explicitly passed all-zero
`Hz_t` of any broadcastable shape. -/
theorem C6_default_hzt (L m n : Nat) (u v pm pn Hz zt2 : NDArray)
    (hu : u.shape = [L, m + 2, n + 1]) (hv : v.shape = [L, m + 1, n + 2])
    (hpm : pm.shape = [m + 2, n + 2]) (hpn : pn.shape = [m + 2, n + 2])
    (hHz : Hz.shape = [L, m + 2, n + 2]) (h2 : HztOk zt2 L m n)
    (h0 : AllZero zt2) :
    omegaHz u v pm pn Hz zt2 = omegaHzDefault u v pm pn Hz := by
  rw [omegaHzDefault, omegaHz_eq hu hv hpm hpn hHz h2,
    omegaHz_eq hu hv hpm hpn hHz (Or.inl rfl)]
  refine congrArg some (build_ext ?_)
  intro idx _
  simp [specOmega, specSigma, allZero_bget h0, zeroScalar_bget]

def ztZ2 : NDArray := ⟨[1, 1], [0]⟩

theorem C6_witness :
    omegaHz uW vW pmW pnW HzW ztZ2 = omegaHzDefault uW vW pmW pnW HzW :=
  C6_default_hzt 1 1 1 uW vW pmW pnW HzW ztZ2 rfl rfl rfl rfl rfl
    (Or.inr (Or.inl rfl)) (by decide)

/-! ### Claim C8 -/

/-- C8: for spatially constant `u = U`, zero `v`, uniform `Hz = H`,
uniformly zero `pm` and `pn`, and the default `Hz_t`, the output is zero
everywhere. -/
theorem C8_uniform_flow (L m n : Nat) (U H : ℚ) (u v pm pn Hz : NDArray)
    (hu : u.shape = [L, m + 2, n + 1]) (hv : v.shape = [L, m + 1, n + 2])
    (hpm : pm.shape = [m + 2, n + 2]) (hpn : pn.shape = [m + 2, n + 2])
    (hHz : Hz.shape = [L, m + 2, n + 2])
    (hUc : AllConst u U) (hV : AllZero v) (hHc : AllConst Hz H)
    (hPM : AllZero pm) (hPN : AllZero pn) :
    ∃ r, omegaHzDefault u v pm pn Hz = some r ∧ AllZero r := by
  refine ⟨_, omegaHz_eq hu hv hpm hpn hHz (Or.inl rfl), ?_⟩
  intro x hx
  obtain ⟨idx, _, rfl⟩ := List.mem_map.mp hx
  simp [specOmega, specSigma, allZero_get hPM, allZero_get hPN,
    zeroScalar_bget]

def uC : NDArray := ⟨[1, 3, 2], [3, 3, 3, 3, 3, 3]⟩
def HzC : NDArray := ⟨[1, 3, 3], [2, 2, 2, 2, 2, 2, 2, 2, 2]⟩
def pmZ : NDArray := ⟨[3, 3], [0, 0, 0, 0, 0, 0, 0, 0, 0]⟩

theorem C8_witness :
    ∃ r, omegaHzDefault uC vZ pmZ pmZ HzC = some r ∧ AllZero r :=
  C8_uniform_flow 1 1 1 3 2 uC vZ pmZ pmZ HzC rfl rfl rfl rfl rfl
    (by decide) (by decide) (by decide) (by decide) (by decide)

/-! ### Claim C7 -/

def uBadW : NDArray := ⟨[1, 3, 1], [0, 5, 0]⟩

/-- C7 as stated is false: `uBadW` has last dimension 1 where the shape
invariants require `Nx - 1 = 2`, yet the call returns a result instead of
failing — numpy broadcasting stretches the size-1 dimension. -/
theorem C7_counterexample :
    uBadW.shape = [1, 3, 1] ∧ vW.shape = [1, 2, 3] ∧ pmW.shape = [3, 3] ∧
      pnW.shape = [3, 3] ∧ HzW.shape = [1, 3, 3] ∧
      (omegaHzDefault uBadW vW pmW pnW HzW).isSome = true :=
  ⟨rfl, rfl, rfl, rfl, rfl, rfl⟩

/-- C7 amended: a shape mismatch fails only when some elementwise step is
not broadcast-compatible; in particular, a `u` whose trailing dimension is
neither the required `Nx - 1` nor 1 makes the first flux multiplication
non-broadcastable and the call returns no result.  (Broadcast-compatible
mismatches, such as a size-1 dimension, may silently return a result.) -/
theorem C7_amended_mismatch (L m n A B d : Nat) (u v pm pn Hz Hz_t : NDArray)
    (hu : u.shape = [A, B + 2, d]) (hd1 : d ≠ n + 1) (hd2 : d ≠ 1)
    (hn : n + 1 ≠ 1) (hHz : Hz.shape = [L, m + 2, n + 2]) :
    omegaHz u v pm pn Hz Hz_t = none := by
  have e1 := sliceTrail_three hu 1 1 0 0
  rw [show B + 2 - 1 - 1 = B by omega, show d - 0 - 0 = d by omega] at e1
  have e2 := sliceTrail_three hHz 1 1 0 1
  rw [show m + 2 - 1 - 1 = m by omega, show n + 2 - 0 - 1 = n + 1 by omega] at e2
  have e3 := sliceTrail_three hHz 1 1 1 0
  rw [show m + 2 - 1 - 1 = m by omega, show n + 2 - 1 - 0 = n + 1 by omega] at e3
  have hbc : broadcastShapes [A, B, d] [L, m, n + 1] = none := by
    show (bcastDims [d, B, A] [n + 1, m, L]).map List.reverse = none
    rw [bcastDims_cons_mismatch hd1 hd2 hn]
    rfl
  have hf : uflux u Hz = none := by
    unfold uflux
    rw [e1, Option.some_bind, binop_build_scalar _ _ _ half rfl,
      Option.some_bind, e2, Option.some_bind, e3, Option.some_bind,
      binop_build_build _ _ _ _ _ _ (broadcastShapes_self [L, m, n + 1]),
      Option.some_bind]
    show (broadcastShapes [A, B, d] [L, m, n + 1]).map _ = none
    rw [hbc]
    rfl
  unfold omegaHz omegaHz_sigma
  rw [hf]
  rfl

def uBad2W : NDArray := ⟨[1, 3, 3], [0, 0, 0, 1, 2, 3, 0, 0, 0]⟩

theorem C7_witness :
    omegaHz uBad2W vW pmW pnW HzW zeroScalar = none :=
  C7_amended_mismatch 1 1 1 1 1 3 uBad2W vW pmW pnW HzW zeroScalar
    rfl (by decide) (by decide) (by decide) rfl

/-! ### Claim C10 -/

/-- The operation `diff` on explicitly constructed rank-2 arrays. -/
theorem diffNeg_build_two_one (B C : Nat) (g : List Nat → ℚ) :
    (build [B, C] g).diffNeg 1 = some (build [B, C - 1]
      (fun idx => (build [B, C] g).get (idx.set 1 (idx.getD 1 0 + 1)) -
        (build [B, C] g).get idx)) :=
  diffNeg_two_one rfl

theorem diffNeg_build_two_two (B C : Nat) (g : List Nat → ℚ) :
    (build [B, C] g).diffNeg 2 = some (build [B - 1, C]
      (fun idx => (build [B, C] g).get (idx.set 0 (idx.getD 0 0 + 1)) -
        (build [B, C] g).get idx)) :=
  diffNeg_two_two rfl

/-- C10: the cumulative sum is always taken along the third-from-last
axis; for purely 2-d inputs the divergence term itself is well-defined
(a 2-d array of the expected interior shape), but the cumulative-sum step
hits an invalid axis and the call returns no result. -/
theorem C10_no_vertical_axis (m n : Nat) (u v pm pn Hz : NDArray)
    (hu : u.shape = [m + 2, n + 1]) (hv : v.shape = [m + 1, n + 2])
    (hpm : pm.shape = [m + 2, n + 2]) (hpn : pn.shape = [m + 2, n + 2])
    (hHz : Hz.shape = [m + 2, n + 2]) :
    (∃ s, omegaHz_sigma u v pm pn Hz zeroScalar = some s ∧
      s.shape = [m, n]) ∧
      omegaHzDefault u v pm pn Hz = none := by
  have eu1 := sliceTrail_two hu 1 1 0 0
  rw [show m + 2 - 1 - 1 = m by omega, show n + 1 - 0 - 0 = n + 1 by omega] at eu1
  have eu2 := sliceTrail_two hHz 1 1 0 1
  rw [show m + 2 - 1 - 1 = m by omega, show n + 2 - 0 - 1 = n + 1 by omega] at eu2
  have eu3 := sliceTrail_two hHz 1 1 1 0
  rw [show m + 2 - 1 - 1 = m by omega, show n + 2 - 1 - 0 = n + 1 by omega] at eu3
  have ev1 := sliceTrail_two hv 0 0 1 1
  rw [show m + 1 - 0 - 0 = m + 1 by omega, show n + 2 - 1 - 1 = n by omega] at ev1
  have ev2 := sliceTrail_two hHz 0 1 1 1
  rw [show m + 2 - 0 - 1 = m + 1 by omega, show n + 2 - 1 - 1 = n by omega] at ev2
  have ev3 := sliceTrail_two hHz 1 0 1 1
  rw [show m + 2 - 1 - 0 = m + 1 by omega, show n + 2 - 1 - 1 = n by omega] at ev3
  have epm := sliceFront_two hpm 1 1 1 1
  rw [show m + 2 - 1 - 1 = m by omega, show n + 2 - 1 - 1 = n by omega] at epm
  have epn := sliceFront_two hpn 1 1 1 1
  rw [show m + 2 - 1 - 1 = m by omega, show n + 2 - 1 - 1 = n by omega] at epn
  have hfu : uflux u Hz = some (build [m, n + 1]
      (fun idx => (build [m, n + 1] (fun idx2 =>
          (build [m, n + 1] (fun idx3 =>
            u.get (addOffs idx3 [(1, 1), (0, 0)]))).bget idx2 *
          half.bget idx2)).bget idx *
        (build [m, n + 1] (fun idx2 =>
          (build [m, n + 1] (fun idx3 =>
            Hz.get (addOffs idx3 [(1, 1), (0, 1)]))).bget idx2 +
          (build [m, n + 1] (fun idx3 =>
            Hz.get (addOffs idx3 [(1, 1), (1, 0)]))).bget idx2)).bget idx)) := by
    unfold uflux
    rw [eu1, Option.some_bind, binop_build_scalar _ _ _ half rfl,
      Option.some_bind, eu2, Option.some_bind, eu3, Option.some_bind,
      binop_build_build _ _ _ _ _ _ (broadcastShapes_self [m, n + 1]),
      Option.some_bind,
      binop_build_build _ _ _ _ _ _ (broadcastShapes_self [m, n + 1])]
  have hfv : vflux v Hz = some (build [m + 1, n]
      (fun idx => (build [m + 1, n] (fun idx2 =>
          (build [m + 1, n] (fun idx3 =>
            v.get (addOffs idx3 [(0, 0), (1, 1)]))).bget idx2 *
          half.bget idx2)).bget idx *
        (build [m + 1, n] (fun idx2 =>
          (build [m + 1, n] (fun idx3 =>
            Hz.get (addOffs idx3 [(0, 1), (1, 1)]))).bget idx2 +
          (build [m + 1, n] (fun idx3 =>
            Hz.get (addOffs idx3 [(1, 0), (1, 1)]))).bget idx2)).bget idx)) := by
    unfold vflux
    rw [ev1, Option.some_bind, binop_build_scalar _ _ _ half rfl,
      Option.some_bind, ev2, Option.some_bind, ev3, Option.some_bind,
      binop_build_build _ _ _ _ _ _ (broadcastShapes_self [m + 1, n]),
      Option.some_bind,
      binop_build_build _ _ _ _ _ _ (broadcastShapes_self [m + 1, n])]
  obtain ⟨g, hsig⟩ : ∃ g, omegaHz_sigma u v pm pn Hz zeroScalar =
      some (build [m, n] g) := by
    unfold omegaHz_sigma
    rw [hfu, Option.some_bind, hfv, Option.some_bind,
      diffNeg_build_two_one m (n + 1) _, Option.some_bind]
    rw [show n + 1 - 1 = n by omega]
    rw [epm, Option.some_bind,
      binop_build_build _ _ _ _ _ _ (broadcastShapes_self [m, n]),
      Option.some_bind,
      diffNeg_build_two_two (m + 1) n _, Option.some_bind]
    rw [show m + 1 - 1 = m by omega]
    rw [epn, Option.some_bind,
      binop_build_build _ _ _ _ _ _ (broadcastShapes_self [m, n]),
      Option.some_bind,
      binop_any_build _ _ _ _ _
        (show broadcastShapes zeroScalar.neg.shape [m, n] = some [m, n] from
          broadcastShapes_nil_left [m, n]),
      Option.some_bind,
      binop_build_build _ _ _ _ _ _ (broadcastShapes_self [m, n])]
    exact ⟨_, rfl⟩
  refine ⟨⟨build [m, n] g, hsig, rfl⟩, ?_⟩
  unfold omegaHzDefault omegaHz
  rw [hsig, Option.some_bind]
  exact cumsumNeg_two_none rfl

def u2d : NDArray := ⟨[3, 2], [1, 2, 3, 4, 5, 6]⟩
def v2d : NDArray := ⟨[2, 3], [2, 1, 0, 3, 1, 2]⟩
def Hz2d : NDArray := ⟨[3, 3], [2, 2, 2, 2, 4, 2, 2, 2, 2]⟩

theorem C10_witness :
    (∃ s, omegaHz_sigma u2d v2d pmW pnW Hz2d zeroScalar = some s ∧
      s.shape = [1, 1]) ∧
      omegaHzDefault u2d v2d pmW pnW Hz2d = none :=
  C10_no_vertical_axis 1 1 u2d v2d pmW pnW Hz2d rfl rfl rfl rfl rfl

/-! ### Claim C9 -/

/-- C9: the result does not depend on the input entries outside the
slices the routine reads — two runs whose inputs agree on interior rows of
`u`, interior columns of `v`, the interior of `pm` and `pn`, and all of
`Hz` except its four horizontal corner entries (and share `Hz_t`) return
equal outputs. -/
theorem C9_boundary_entries_irrelevant (L m n : Nat)
    (u v pm pn Hz u2 v2 pm2 pn2 Hz2 Hz_t : NDArray)
    (hu : u.shape = [L, m + 2, n + 1]) (hv : v.shape = [L, m + 1, n + 2])
    (hpm : pm.shape = [m + 2, n + 2]) (hpn : pn.shape = [m + 2, n + 2])
    (hHz : Hz.shape = [L, m + 2, n + 2])
    (hu2 : u2.shape = [L, m + 2, n + 1]) (hv2 : v2.shape = [L, m + 1, n + 2])
    (hpm2 : pm2.shape = [m + 2, n + 2]) (hpn2 : pn2.shape = [m + 2, n + 2])
    (hHz2 : Hz2.shape = [L, m + 2, n + 2]) (hzt : HztOk Hz_t L m n)
    (hU : ∀ k, k < L → ∀ i, i ≤ m → ∀ j, j < n + 1 → 1 ≤ i →
      u.get [k, i, j] = u2.get [k, i, j])
    (hV : ∀ k, k < L → ∀ i, i < m + 1 → ∀ j, j ≤ n → 1 ≤ j →
      v.get [k, i, j] = v2.get [k, i, j])
    (hPM : ∀ i, i ≤ m → ∀ j, j ≤ n → 1 ≤ i → 1 ≤ j →
      pm.get [i, j] = pm2.get [i, j])
    (hPN : ∀ i, i ≤ m → ∀ j, j ≤ n → 1 ≤ i → 1 ≤ j →
      pn.get [i, j] = pn2.get [i, j])
    (hHZrow : ∀ k, k < L → ∀ i, i ≤ m → ∀ j, j < n + 2 → 1 ≤ i →
      Hz.get [k, i, j] = Hz2.get [k, i, j])
    (hHZcol : ∀ k, k < L → ∀ i, i < m + 2 → ∀ j, j ≤ n → 1 ≤ j →
      Hz.get [k, i, j] = Hz2.get [k, i, j]) :
    omegaHz u v pm pn Hz Hz_t = omegaHz u2 v2 pm2 pn2 Hz2 Hz_t := by
  rw [omegaHz_eq hu hv hpm hpn hHz hzt, omegaHz_eq hu2 hv2 hpm2 hpn2 hHz2 hzt]
  refine congrArg some (build_ext ?_)
  intro idx hidx
  obtain ⟨k, i, j, rfl, hk, hi, hj⟩ := inBounds_three_elim hidx
  simp only [List.getD_cons_zero, List.getD_cons_succ, specOmega]
  refine congrArg List.sum (List.map_congr_left ?_)
  intro q hq
  have hqL : q < L := by
    have := List.mem_range.mp hq
    omega
  simp only [specSigma, specUflux, specVflux,
    hU q hqL (i + 1) (by omega) j (by omega) (by omega),
    hU q hqL (i + 1) (by omega) (j + 1) (by omega) (by omega),
    hV q hqL i (by omega) (j + 1) (by omega) (by omega),
    hV q hqL (i + 1) (by omega) (j + 1) (by omega) (by omega),
    hPM (i + 1) (by omega) (j + 1) (by omega) (by omega) (by omega),
    hPN (i + 1) (by omega) (j + 1) (by omega) (by omega) (by omega),
    hHZrow q hqL (i + 1) (by omega) j (by omega) (by omega),
    hHZrow q hqL (i + 1) (by omega) (j + 1) (by omega) (by omega),
    hHZrow q hqL (i + 1) (by omega) (j + 2) (by omega) (by omega),
    hHZcol q hqL i (by omega) (j + 1) (by omega) (by omega),
    hHZcol q hqL (i + 2) (by omega) (j + 1) (by omega) (by omega)]

def u2W : NDArray := ⟨[1, 3, 2], [9, 9, 3, 4, 5, 6]⟩
def v2W : NDArray := ⟨[1, 2, 3], [7, 1, 0, 8, 1, 2]⟩
def pm2W : NDArray := ⟨[3, 3], [5, 5, 5, 5, 2, 5, 5, 5, 5]⟩
def pn2W : NDArray := ⟨[3, 3], [4, 4, 4, 4, 3, 4, 4, 4, 4]⟩
def Hz2W : NDArray := ⟨[1, 3, 3], [9, 2, 2, 2, 4, 2, 2, 2, 7]⟩

theorem C9_witness :
    omegaHz uW vW pmW pnW HzW zeroScalar =
      omegaHz u2W v2W pm2W pn2W Hz2W zeroScalar :=
  C9_boundary_entries_irrelevant 1 1 1 uW vW pmW pnW HzW u2W v2W pm2W pn2W
    Hz2W zeroScalar rfl rfl rfl rfl rfl rfl rfl rfl rfl rfl (Or.inl rfl)
    (by decide) (by decide) (by decide) (by decide) (by decide) (by decide)

/-! ### Claim C4 -/

theorem sum_map_add_comm (l : List Nat) (f g : Nat → ℚ) :
    (l.map f).sum + (l.map g).sum = (l.map (fun x => f x + g x)).sum := by
  induction l with
  | nil => simp
  | cons x xs ih =>
    simp only [List.map_cons, List.sum_cons, ← ih]
    ring

/-- The broadcast read of an elementwise linear combination of two
`Hz_t`-shaped arrays is the linear combination of their broadcast reads. -/
theorem hzt_lin_bget (a b : ℚ) {t1 t2 : NDArray} {L m n : Nat}
    (ht1 : HztOk t1 L m n) (ht2 : t2.shape = t1.shape)
    {q i j : Nat} (hq : q < L) (hi : i < m) (hj : j < n) :
    (build t1.shape (fun idx =>
        a * t1.bget idx + b * t2.bget idx)).bget [q, i, j] =
      a * t1.bget [q, i, j] + b * t2.bget [q, i, j] := by
  rcases ht1 with h | h | h
  · rw [h, bget_of_shape_nil rfl, get_build _ (show inBounds [] [] from trivial),
      bget_of_shape_nil h, bget_of_shape_nil (ht2.trans h),
      bget_of_shape_nil h, bget_of_shape_nil (ht2.trans h)]
  · rw [h, build_bget_two_of_three _ q hi hj,
      bget_two_any h hi hj, bget_two_any (ht2.trans h) hi hj,
      bget_two_of_three_any h hi hj, bget_two_of_three_any (ht2.trans h) hi hj]
  · rw [h, build_bget_three _ hq hi hj,
      bget_three_any h hq hi hj, bget_three_any (ht2.trans h) hq hi hj]

/-- C4: `computeOmegaHz` is linear in `(u, v, Hz_t)` for fixed `Hz`, `pm`,
`pn`: on the elementwise combinations `a*u1 + b*u2`, `a*v1 + b*v2`,
`a*Hz_t1 + b*Hz_t2` it returns exactly `a` times the first result plus `b`
times the second. -/
theorem C4_linearity (a b : ℚ) (L m n : Nat)
    (u1 v1 t1 u2 v2 t2 pm pn Hz uc vc tc : NDArray)
    (hu1 : u1.shape = [L, m + 2, n + 1]) (hv1 : v1.shape = [L, m + 1, n + 2])
    (hu2 : u2.shape = [L, m + 2, n + 1]) (hv2 : v2.shape = [L, m + 1, n + 2])
    (hpm : pm.shape = [m + 2, n + 2]) (hpn : pn.shape = [m + 2, n + 2])
    (hHz : Hz.shape = [L, m + 2, n + 2])
    (ht1 : HztOk t1 L m n) (ht2 : t2.shape = t1.shape)
    (hU : NDArray.binop (fun x y => x + y) (u1.scale a) (u2.scale b) = some uc)
    (hV : NDArray.binop (fun x y => x + y) (v1.scale a) (v2.scale b) = some vc)
    (hT : NDArray.binop (fun x y => x + y) (t1.scale a) (t2.scale b) = some tc) :
    ∃ r1 r2 rc, omegaHz u1 v1 pm pn Hz t1 = some r1 ∧
      omegaHz u2 v2 pm pn Hz t2 = some r2 ∧
      NDArray.binop (fun x y => x + y) (r1.scale a) (r2.scale b) = some rc ∧
      omegaHz uc vc pm pn Hz tc = some rc := by
  rw [binop_eq (show broadcastShapes (u1.scale a).shape (u2.scale b).shape =
      some [L, m + 2, n + 1] by
        show broadcastShapes u1.shape u2.shape = _
        rw [hu1, hu2]
        exact broadcastShapes_self _)] at hU
  obtain rfl := Option.some.inj hU
  rw [binop_eq (show broadcastShapes (v1.scale a).shape (v2.scale b).shape =
      some [L, m + 1, n + 2] by
        show broadcastShapes v1.shape v2.shape = _
        rw [hv1, hv2]
        exact broadcastShapes_self _)] at hV
  obtain rfl := Option.some.inj hV
  rw [binop_eq (show broadcastShapes (t1.scale a).shape (t2.scale b).shape =
      some t1.shape by
        show broadcastShapes t1.shape t2.shape = _
        rw [ht2]
        exact broadcastShapes_self _)] at hT
  obtain rfl := Option.some.inj hT
  have ht2ok : HztOk t2 L m n := by
    rcases ht1 with h | h | h
    · exact Or.inl (ht2.trans h)
    · exact Or.inr (Or.inl (ht2.trans h))
    · exact Or.inr (Or.inr (ht2.trans h))
  refine ⟨specArr u1 v1 pm pn Hz t1 L m n, specArr u2 v2 pm pn Hz t2 L m n,
    specArr _ _ pm pn Hz _ L m n,
    omegaHz_eq hu1 hv1 hpm hpn hHz ht1,
    omegaHz_eq hu2 hv2 hpm hpn hHz ht2ok, ?_,
    omegaHz_eq rfl rfl hpm hpn hHz (show HztOk _ L m n from ht1)⟩
  rw [binop_eq (show broadcastShapes
      ((specArr u1 v1 pm pn Hz t1 L m n).scale a).shape
      ((specArr u2 v2 pm pn Hz t2 L m n).scale b).shape = some [L, m, n] from
      broadcastShapes_self [L, m, n])]
  refine congrArg some (build_ext ?_)
  intro idx hidx
  obtain ⟨k, i, j, rfl, hk, hi, hj⟩ := inBounds_three_elim hidx
  simp only [specArr, scale_bget, build_bget_three _ hk hi hj,
    List.getD_cons_zero, List.getD_cons_succ, specOmega]
  rw [← List.sum_map_mul_left, ← List.sum_map_mul_left, sum_map_add_comm]
  refine congrArg List.sum (List.map_congr_left ?_)
  intro q hq
  have hqL : q < L := by
    have := List.mem_range.mp hq
    omega
  simp only [specSigma, specUflux, specVflux,
    hzt_lin_bget a b ht1 ht2 hqL hi hj,
    build_get_three _ hqL (show i + 1 < m + 2 by omega) (show j < n + 1 by omega),
    build_get_three _ hqL (show i + 1 < m + 2 by omega)
      (show j + 1 < n + 1 by omega),
    build_get_three _ hqL (show i < m + 1 by omega) (show j + 1 < n + 2 by omega),
    build_get_three _ hqL (show i + 1 < m + 1 by omega)
      (show j + 1 < n + 2 by omega),
    scale_bget,
    bget_three_any hu1 hqL (show i + 1 < m + 2 by omega) (show j < n + 1 by omega),
    bget_three_any hu2 hqL (show i + 1 < m + 2 by omega) (show j < n + 1 by omega),
    bget_three_any hu1 hqL (show i + 1 < m + 2 by omega)
      (show j + 1 < n + 1 by omega),
    bget_three_any hu2 hqL (show i + 1 < m + 2 by omega)
      (show j + 1 < n + 1 by omega),
    bget_three_any hv1 hqL (show i < m + 1 by omega) (show j + 1 < n + 2 by omega),
    bget_three_any hv2 hqL (show i < m + 1 by omega) (show j + 1 < n + 2 by omega),
    bget_three_any hv1 hqL (show i + 1 < m + 1 by omega)
      (show j + 1 < n + 2 by omega),
    bget_three_any hv2 hqL (show i + 1 < m + 1 by omega)
      (show j + 1 < n + 2 by omega)]
  ring

def t2C : NDArray := ⟨[], [4]⟩
def tCW : NDArray :=
  build [] (fun idx => (zeroScalar.scale 2).bget idx + (t2C.scale 3).bget idx)
def uCW : NDArray :=
  build [1, 3, 2] (fun idx => (uW.scale 2).bget idx + (u2W.scale 3).bget idx)
def vCW : NDArray :=
  build [1, 2, 3] (fun idx => (vW.scale 2).bget idx + (v2W.scale 3).bget idx)

theorem C4_witness :
    ∃ r1 r2 rc, omegaHz uW vW pmW pnW HzW zeroScalar = some r1 ∧
      omegaHz u2W v2W pmW pnW HzW t2C = some r2 ∧
      NDArray.binop (fun x y => x + y) (r1.scale 2) (r2.scale 3) = some rc ∧
      omegaHz uCW vCW pmW pnW HzW tCW = some rc :=
  C4_linearity 2 3 1 1 1 uW vW zeroScalar u2W v2W t2C pmW pnW HzW uCW vCW tCW
    rfl rfl rfl rfl rfl rfl rfl (Or.inl rfl) rfl
    (binop_eq (show broadcastShapes (uW.scale 2).shape (u2W.scale 3).shape =
      some [1, 3, 2] from rfl))
    (binop_eq (show broadcastShapes (vW.scale 2).shape (v2W.scale 3).shape =
      some [1, 2, 3] from rfl))
    (binop_eq (show broadcastShapes (zeroScalar.scale 2).shape
      (t2C.scale 3).shape = some [] from rfl))
